import Mathlib

/-!
Verification development for `scripts/update_data.py` (MOEX dashboard daily
data updater).  The script is a collection of independent source updaters
driven by a per-source watermark (the `meta` table's `last_date`), a paginated
fetcher for the MOEX ISS API, per-source row parsers, and a batched upsert
sink, all run sequentially by a `main` orchestrator.

Modelling conventions used throughout this file:

* Calendar dates (ISO `YYYY-MM-DD` strings in the script) are modelled as
  `Nat` day ordinals (days since 1970-01-01).  For valid ISO strings of equal
  length, Python's lexicographic string comparison coincides with
  chronological order, so `<`/`≤` on the ordinals is a faithful translation
  of the script's string comparisons, and `date + timedelta(days=1)` is
  `d + 1`.
* Python runtime values appearing in JSON records are modelled by `Val`
  (`null`, numbers, strings); numeric values are scaled integers (the claims
  under study never depend on fractional arithmetic, only on sign and
  equality tests).  Python truthiness is `Val.truthy`.
* Exceptions (`list.index` `ValueError`, `IndexError`, `TypeError`,
  `float(...)` failures) are modelled with `Except Unit`.
* The network is modelled as an oracle function supplied to each updater
  (page number ↦ page, or ticker ↦ response); HTTP failures are `Option`.
* Storage tables are finite-map-style functions `key → Option row`; Supabase
  `upsert` is insert-or-overwrite by natural key (`upsertByKey`).
* Each updater returns its new state together with a trace recording the
  requests it issued, the rows it handed to the upsert sink, and the
  watermark value it wrote (if any).
-/

/-- `BATCH_SIZE` constant of the script (upsert sink chunk size). -/
def BATCH_SIZE : Nat := 500

/-- `MOEX_PAGE_SIZE` constant of the script (ISS page size). -/
def MOEX_PAGE_SIZE : Nat := 100

/-- The script's default window start `"2013-01-01"`, as a day ordinal
(days since 1970-01-01). -/
def default_from : Nat := 15706

/-- A Python value as it appears in a decoded JSON record. -/
inductive Val : Type
  | null : Val
  | num (n : Int) : Val
  | str (s : String) : Val
deriving DecidableEq

/-- Python truthiness: `None` and `0` and `""` are falsy. -/
def Val.truthy : Val → Bool
  | Val.null => false
  | Val.num n => n ≠ 0
  | Val.str s => s ≠ ""

/-- Python `a or b` (used as `row[...] or 0`, `row[ci] or "SUR"`). -/
def pyOr (v d : Val) : Val := if v.truthy then v else d

/-- Python `cols.index(c)`: first index of `c`, `ValueError` if absent. -/
def pyIndex (cols : List String) (c : String) : Except Unit Nat :=
  if cols.indexOf c < cols.length then Except.ok (cols.indexOf c) else Except.error ()

/-- Python `row[i]` on a list: `IndexError` when out of range. -/
def pyGet (row : List Val) (i : Nat) : Except Unit Val :=
  match row.get? i with
  | some v => Except.ok v
  | none => Except.error ()

/-- Supabase `table.upsert` semantics for a list of rows: insert-or-overwrite
keyed by the table's natural key, later rows winning. -/
def upsertByKey {κ ρ : Type} [DecidableEq κ] (key : ρ → κ)
    (t : κ → Option ρ) (rows : List ρ) : κ → Option ρ :=
  rows.foldl (fun acc r => fun k => if k = key r then some r else acc k) t

/-!  ## Batched upsert sink (`upsert_batch`, script lines 58-63)

`upsert_batch(table, rows)` walks `rows` in chunks of `BATCH_SIZE`, issuing
one storage write per chunk, and sleeps `BATCH_DELAY` after a chunk exactly
when `i + BATCH_SIZE < len(rows)`, i.e. when the chunk is not the final one.
We model the sink by the list of write events it issues: each event is the
chunk written together with the Boolean "a pacing delay followed this
write". -/

/-- Loop of `upsert_batch`, fuelled so that it reduces definitionally.
At each step the remaining suffix `rows` starts at offset `i`; the delay
condition `i + BATCH_SIZE < len(rows)` of the script is equivalent to
`BATCH_SIZE < rows.length` for the remaining suffix. -/
def upsert_batch_go {ρ : Type} : Nat → List ρ → List (List ρ × Bool)
  | 0, _ => []
  | _ + 1, [] => []
  | fuel + 1, r :: rs =>
      ((r :: rs).take BATCH_SIZE, decide (BATCH_SIZE < (r :: rs).length)) ::
        upsert_batch_go fuel ((r :: rs).drop BATCH_SIZE)

/-- The write events issued by `upsert_batch rows`: the loop runs at most
`rows.length` iterations since every iteration consumes at least one row. -/
def upsert_batch_events {ρ : Type} (rows : List ρ) : List (List ρ × Bool) :=
  upsert_batch_go rows.length rows

/-- The shape (chunk length, delay flag) of the write events depends only on
the input length; this function computes it from the length alone. -/
def batch_shape : Nat → Nat → List (Nat × Bool)
  | 0, _ => []
  | _ + 1, 0 => []
  | fuel + 1, l + 1 =>
      (min BATCH_SIZE (l + 1), decide (BATCH_SIZE < l + 1)) ::
        batch_shape fuel (l + 1 - BATCH_SIZE)

/-!  ## Paginated fetcher (`fetch_moex_paginated`, script lines 66-87)

The fetcher requests pages at offsets `0, MOEX_PAGE_SIZE, 2*MOEX_PAGE_SIZE, …`.
We model the upstream as an oracle `pages : Nat → List ρ` giving the page at
page number `i` (request offset `i * MOEX_PAGE_SIZE`), and the caller-supplied
`parse_row` as `parse : ρ → Option β` (a record value carries its page's
column list, so currying the columns into `ρ` loses no generality; `none`
is a rejected record).  The loop body:

* if the page's `data` is empty, break without parsing;
* otherwise parse every record, appending accepted rows;
* if the page was short (`len(data) < MOEX_PAGE_SIZE`), break;
* otherwise advance to the next offset and repeat.

The `while True` loop is given explicit fuel (the number of page requests it
may still issue); `none` means the fuel was exhausted before a short or empty
page was seen. -/

def fetch_moex_paginated {ρ β : Type} (pages : Nat → List ρ) (parse : ρ → Option β) :
    Nat → Nat → Option (List β)
  | 0, _ => none
  | fuel + 1, i =>
      let data := pages i
      if data.isEmpty then some []
      else
        let parsed := data.filterMap parse
        if data.length < MOEX_PAGE_SIZE then some parsed
        else
          match fetch_moex_paginated pages parse fuel (i + 1) with
          | some rest => some (parsed ++ rest)
          | none => none

/-!  ## Incremental window and the stock-history updater
(`incremental_dates` lines 90-93, `update_moex_stock_history` lines 98-129)

For the updater-level claims the fetch-and-parse stage is abstracted as an
oracle `fetch : Nat → Nat → List StockRow` mapping the requested window
`(from_date, to_date)` to the parsed rows `fetch_moex_paginated` returns for
it.  The updater's observable effects are recorded in a trace. -/

/-- `incremental_dates(source)`: window start is watermark + 1 day, or the
default; window end is `TODAY`. -/
def incremental_dates (today : Nat) (wm : Option Nat) : Nat × Nat :=
  (match wm with
   | some d => d + 1
   | none => default_from,
   today)

/-- A normalized row of the `moex_stock_history` table. -/
structure StockRow : Type where
  trade_date : Nat
  openV : Option Int
  highV : Option Int
  lowV : Option Int
  close : Int
  volume : Int
  value : Int
deriving DecidableEq

/-- State owned by the stock-history updater: its storage table (keyed by the
natural key `trade_date`) and its `meta.last_date` watermark row. -/
structure MoexState : Type where
  table : Nat → Option StockRow
  wm : Option Nat

/-- Observable effects of one `update_moex_stock_history` run. -/
structure StockTrace : Type where
  requested : Bool
  upserts : List StockRow
  wm_write : Option Nat
deriving DecidableEq

/-- `update_moex_stock_history`: compute the window; return immediately when
`from_date > to_date`; otherwise fetch+parse; with zero rows write nothing;
otherwise batch-upsert the rows and set the watermark to
`rows[-1]["trade_date"]`. -/
def update_moex_stock_history (today : Nat) (fetch : Nat → Nat → List StockRow)
    (s : MoexState) : MoexState × StockTrace :=
  let fd := incremental_dates today s.wm
  if fd.1 > fd.2 then (s, ⟨false, [], none⟩)
  else
    match fetch fd.1 fd.2 with
    | [] => (s, ⟨true, [], none⟩)
    | r :: rs =>
        let w := ((r :: rs).getLast (List.cons_ne_nil r rs)).trade_date
        ({ table := upsertByKey StockRow.trade_date s.table (r :: rs),
           wm := some w },
         ⟨true, r :: rs, some w⟩)

/-- The maximum `trade_date` occurring in a row list (0 for the empty list). -/
def max_trade_date (rows : List StockRow) : Nat :=
  rows.foldr (fun r m => max r.trade_date m) 0

/-!  ## Stock-history row parser (`update_moex_stock_history.parse`,
script lines 105-117) and the per-page record loop (lines 79-82)

The parser locates fields by name via `cols.index` (a `ValueError` if the
column is absent), reads the record positionally (`IndexError` if too short),
rejects the record (`None`) when `CLOSE` is falsy (`None`/`0`) or `<= 0`
(a `TypeError` if `CLOSE` is a non-numeric truthy value), and otherwise
builds the normalized dict, defaulting falsy `VOLUME`/`VALUE` to `0`. -/

/-- The normalized dict built by the stock parser, fields in source order. -/
structure ParsedStock : Type where
  trade_date : Val
  openV : Val
  highV : Val
  lowV : Val
  close : Val
  volume : Val
  value : Val
deriving DecidableEq

/-- `parse(cols, row)` of `update_moex_stock_history`: `Except.error` models a
raised exception, `Except.ok none` a silently rejected record. -/
def parse_stock (cols : List String) (row : List Val) : Except Unit (Option ParsedStock) := do
  let ci ← pyIndex cols "CLOSE"
  let close ← pyGet row ci
  if ¬ close.truthy then
    return none
  match close with
  | Val.num n =>
      if n ≤ 0 then
        return none
      else
        let ti ← pyIndex cols "TRADEDATE"
        let td ← pyGet row ti
        let oi ← pyIndex cols "OPEN"
        let ov ← pyGet row oi
        let hi ← pyIndex cols "HIGH"
        let hv ← pyGet row hi
        let li ← pyIndex cols "LOW"
        let lv ← pyGet row li
        let vi ← pyIndex cols "VOLUME"
        let vv ← pyGet row vi
        let wi ← pyIndex cols "VALUE"
        let wv ← pyGet row wi
        return some ⟨td, ov, hv, lv, close, pyOr vv (Val.num 0), pyOr wv (Val.num 0)⟩
  | _ => Except.error ()

/-- The record loop of `fetch_moex_paginated` over one page (lines 79-82):
every record is parsed; accepted rows are appended in order; a parser
exception propagates. -/
def process_page (cols : List String) : List (List Val) → Except Unit (List ParsedStock)
  | [] => Except.ok []
  | row :: rest =>
      match parse_stock cols row with
      | Except.error e => Except.error e
      | Except.ok parsed =>
          match process_page cols rest with
          | Except.error e => Except.error e
          | Except.ok tail =>
              match parsed with
              | some r => Except.ok (r :: tail)
              | none => Except.ok tail

/-!  ## Brent updater (`update_brent_history`, script lines 277-309)

The updater fetches one static CSV (no date parameters in the request),
keeps the data lines with at least two comma-separated fields whose first
field is `>= from_date` (where `from_date` is the stored watermark itself,
or `"2013-01-01"` if absent), parses the second field as a float (skipping
the line on `ValueError`), keeps positive closes, and then — only when a
watermark is stored — drops the rows with `trade_date <= last` before
upserting.  A CSV data line is modelled by its date field, the result of
`float(parts[1])` (`none` = `ValueError`), and whether it has `>= 2`
fields. -/

/-- A data line of the Brent CSV after `line.split(",")`. -/
structure BrentLine : Type where
  long_enough : Bool
  date : Nat
  closeParse : Option Int
deriving DecidableEq

/-- A row of the `brent_history` table. -/
structure BrentRow : Type where
  trade_date : Nat
  close : Int
deriving DecidableEq

/-- State owned by the Brent updater. -/
structure BrentState : Type where
  table : Nat → Option BrentRow
  wm : Option Nat

/-- Observable effects of one Brent run. -/
structure BrentTrace : Type where
  upserts : List BrentRow
  wm_write : Option Nat
deriving DecidableEq

/-- The CSV scanning loop of `update_brent_history` (lines 289-298). -/
def brent_parse_rows (from_date : Nat) (lines : List BrentLine) : List BrentRow :=
  lines.filterMap fun l =>
    if l.long_enough && decide (from_date ≤ l.date) then
      match l.closeParse with
      | some c => if 0 < c then some ⟨l.date, c⟩ else none
      | none => none
    else none

/-- `update_brent_history`, over the decoded CSV data lines. -/
def update_brent_history (lines : List BrentLine) (s : BrentState) :
    BrentState × BrentTrace :=
  let from_date := s.wm.getD default_from
  let rows := brent_parse_rows from_date lines
  let rows2 : List BrentRow :=
    match s.wm with
    | some last => rows.filter (fun r => decide (last < r.trade_date))
    | none => rows
  match rows2 with
  | [] => (s, ⟨[], none⟩)
  | r :: rs =>
      let w := ((r :: rs).getLast (List.cons_ne_nil r rs)).trade_date
      ({ table := upsertByKey BrentRow.trade_date s.table (r :: rs), wm := some w },
       ⟨r :: rs, some w⟩)

/-!  ## Global exchanges updater (`update_global_exchanges`, lines 374-417)

For each of the five fixed exchanges the updater issues one stooq request
whose range starts at `from_date = get_last_date(source) or "2013-01-01"`
(the stored watermark itself, date separators stripped) and ends at `TODAY`.
Each response's data lines are scanned: lines with `>= 5` fields have their
fifth field parsed by `float` (an exception there is caught by the
per-exchange `try`, which keeps the rows accumulated so far and moves to the
next exchange); positive closes are appended to the shared `all_rows`.  There
is no comparison of a line's date against the watermark.  If any rows were
collected they are upserted and the watermark is set to `TODAY`. -/

/-- A data line of a stooq CSV response after `line.split(",")`:
its date field, the result of `float(parts[4])` (`none` = `ValueError`),
and whether it has `>= 5` fields. -/
structure GeLine : Type where
  long_enough : Bool
  date : Nat
  closeParse : Option Int
deriving DecidableEq

/-- A row of the `global_exchanges` table. -/
structure GeRow : Type where
  ticker : String
  trade_date : Nat
  close : Int
deriving DecidableEq

/-- State owned by the global-exchanges updater. -/
structure GeState : Type where
  table : String × Nat → Option GeRow
  wm : Option Nat

/-- Observable effects of one global-exchanges run: the requests issued
(stooq ticker, range start `d1`, range end `d2`), the rows handed to the
sink, and the watermark write. -/
structure GeTrace : Type where
  requests : List (String × Nat × Nat)
  upserts : List GeRow
  wm_write : Option Nat
deriving DecidableEq

/-- The fixed `(stooq_ticker, name)` exchange list of the script. -/
def ge_exchanges : List (String × String) :=
  [("ice.us", "ICE"), ("cme.us", "CME"), ("388.hk", "HKEX"),
   ("lseg.uk", "LSEG"), ("db1.de", "DB1")]

/-- Per-exchange line loop (lines 397-407).  A `float` failure on a
long-enough line raises; the surrounding per-exchange `try` keeps the rows
already appended and abandons the rest of that exchange's lines. -/
def ge_exchange_rows (name : String) : List GeLine → List GeRow
  | [] => []
  | l :: ls =>
      if l.long_enough then
        match l.closeParse with
        | none => []
        | some c =>
            if 0 < c then ⟨name, l.date, c⟩ :: ge_exchange_rows name ls
            else ge_exchange_rows name ls
      else ge_exchange_rows name ls

/-- `update_global_exchanges`.  The upstream oracle maps a stooq ticker and
the requested range to the response's data lines (`none` = HTTP failure,
caught per exchange). -/
def update_global_exchanges (today : Nat)
    (upstream : String → Nat → Nat → Option (List GeLine)) (s : GeState) :
    GeState × GeTrace :=
  let from_date := s.wm.getD default_from
  let requests := ge_exchanges.map (fun e => (e.1, from_date, today))
  let all_rows :=
    (ge_exchanges.map (fun e =>
      match upstream e.1 from_date today with
      | some lines => ge_exchange_rows e.2 lines
      | none => [])).flatten
  match all_rows with
  | [] => (s, ⟨requests, [], none⟩)
  | r :: rs =>
      ({ table := upsertByKey (fun x => (x.ticker, x.trade_date)) s.table (r :: rs),
         wm := some today },
       ⟨requests, r :: rs, some today⟩)

/-!  ## World Bank updater (`update_world_bank`, lines 341-371)

The updater never calls `get_last_date`.  For each of the two fixed
indicators it requests the full series for 2013..current_year, keeps the
items whose `value` is not `None` (note: *is-not-None*, not truthiness), and
parses `int(item["date"])`; a failure there raises inside the per-indicator
`try`, keeping the rows accumulated so far.  All collected rows are upserted
and the watermark is set to `TODAY` (only when some row was collected). -/

/-- One item of a World Bank indicator response. -/
structure WbItem : Type where
  country : String
  yearParse : Option Int
  value : Val
deriving DecidableEq

/-- A row of the `world_bank_indicators` table. -/
structure WbRow : Type where
  country : String
  indicator : String
  year : Int
  value : Val
deriving DecidableEq

/-- State owned by the World Bank updater. -/
structure WbState : Type where
  table : String × String × Int → Option WbRow
  wm : Option Nat

/-- Observable effects of one World Bank run. -/
structure WbTrace : Type where
  upserts : List WbRow
  wm_write : Option Nat
deriving DecidableEq

/-- The fixed `(indicator, label)` list of the script. -/
def wb_indicators : List (String × String) :=
  [("NY.GDP.MKTP.CD", "GDP"), ("FP.CPI.TOTL.ZG", "CPI")]

/-- Per-indicator item loop (lines 355-363).  `int(item["date"])` failing
raises; the per-indicator `try` keeps the rows appended so far. -/
def wb_indicator_rows (ind : String) : List WbItem → List WbRow
  | [] => []
  | it :: its =>
      if it.value ≠ Val.null then
        match it.yearParse with
        | none => []
        | some y => ⟨it.country, ind, y, it.value⟩ :: wb_indicator_rows ind its
      else wb_indicator_rows ind its

/-- `update_world_bank`.  The upstream oracle maps an indicator id to the
response items (`none` = HTTP failure or empty/short JSON, caught or skipped
per indicator); the request range `2013:current_year` does not depend on the
state, so the oracle takes no state-derived argument. -/
def update_world_bank (today : Nat) (upstream : String → Option (List WbItem))
    (s : WbState) : WbState × WbTrace :=
  let all_rows :=
    (wb_indicators.map (fun p =>
      match upstream p.1 with
      | some items => wb_indicator_rows p.1 items
      | none => [])).flatten
  match all_rows with
  | [] => (s, ⟨[], none⟩)
  | r :: rs =>
      ({ table := upsertByKey (fun x => (x.country, x.indicator, x.year)) s.table (r :: rs),
         wm := some today },
       ⟨r :: rs, some today⟩)

/-!  ## Dividends updater (`update_moex_dividends`, lines 181-206)

The updater issues one fixed request (no date or watermark parameter), never
calls `get_last_date`, and parses the `dividends` block: the three column
indices are located (raising on absence), then each record with truthy
`registryclosedate` and truthy `value` yields a row, `currencyid` defaulting
to `"SUR"` when falsy.  When at least one row was parsed, the rows are
upserted and the watermark is set to `divs[-1]["registry_close_date"]`; with
zero rows nothing is written at all.  Registry-close dates, like all record
fields, are `Val`s here (numeric dates under the day-ordinal convention). -/

/-- A row of the `moex_dividends` table. -/
structure DivRow : Type where
  registry_close_date : Val
  value : Val
  currency : Val
deriving DecidableEq

/-- The decoded `dividends` block of the response: its `columns` and `data`
(when the key chain `j.get("dividends", {}).get("data")` is missing or falsy
the block is modelled with empty `data`). -/
structure DivResp : Type where
  cols : List String
  data : List (List Val)
deriving DecidableEq

/-- State owned by the dividends updater. -/
structure DivState : Type where
  table : Val → Option DivRow
  wm : Option Val

/-- The fixed request URL of `update_moex_dividends`. -/
def dividends_url : String :=
  "https://iss.moex.com/iss/securities/MOEX/dividends.json?iss.meta=off"

/-- Observable effects of one dividends run. -/
structure DivTrace : Type where
  request : String
  upserts : List DivRow
  wm_write : Option Val
deriving DecidableEq

/-- The record loop of `update_moex_dividends` (lines 194-200); Python's
short-circuit `row[ri] and row[vi]` only indexes `row[vi]` when `row[ri]` is
truthy, and `row[ci]` only when both are. -/
def parse_div_rows (ri vi ci : Nat) : List (List Val) → Except Unit (List DivRow)
  | [] => Except.ok []
  | row :: rest =>
      match pyGet row ri with
      | Except.error e => Except.error e
      | Except.ok rd =>
          if rd.truthy then
            match pyGet row vi with
            | Except.error e => Except.error e
            | Except.ok vv =>
                if vv.truthy then
                  match pyGet row ci with
                  | Except.error e => Except.error e
                  | Except.ok cv =>
                      match parse_div_rows ri vi ci rest with
                      | Except.error e => Except.error e
                      | Except.ok tail =>
                          Except.ok (⟨rd, vv, pyOr cv (Val.str "SUR")⟩ :: tail)
                else parse_div_rows ri vi ci rest
          else parse_div_rows ri vi ci rest

/-- `update_moex_dividends`.  An `Except.error` models the `RuntimeError`
the wrapper re-raises towards the orchestrator. -/
def update_moex_dividends (resp : DivResp) (s : DivState) :
    Except Unit (DivState × DivTrace) :=
  match resp.data with
  | [] => Except.ok (s, ⟨dividends_url, [], none⟩)
  | _ :: _ =>
      match pyIndex resp.cols "registryclosedate" with
      | Except.error e => Except.error e
      | Except.ok ri =>
          match pyIndex resp.cols "value" with
          | Except.error e => Except.error e
          | Except.ok vi =>
              match pyIndex resp.cols "currencyid" with
              | Except.error e => Except.error e
              | Except.ok ci =>
                  match parse_div_rows ri vi ci resp.data with
                  | Except.error e => Except.error e
                  | Except.ok divs =>
                      match divs with
                      | [] => Except.ok (s, ⟨dividends_url, [], none⟩)
                      | d :: ds =>
                          let w := ((d :: ds).getLast
                            (List.cons_ne_nil d ds)).registry_close_date
                          Except.ok
                            ({ table := upsertByKey DivRow.registry_close_date
                                 s.table (d :: ds),
                               wm := some w },
                             ⟨dividends_url, d :: ds, some w⟩)

/-- Sequencing helper for reasoning about successive dividends runs: the
next state, with the orchestrator's convention that a raising run leaves the
state as it was (in the script no write precedes the possible raises). -/
def divStep (resp : DivResp) (s : DivState) : DivState :=
  match update_moex_dividends resp s with
  | Except.ok (t, _) => t
  | Except.error _ => s

/-!  ## Run orchestrator (`main`, lines 434-462)

Each updater is modelled by its outcome (`Except.ok` = returned,
`Except.error` = raised).  The loop invokes every updater in order, appending
the name of each raiser to `errors`; afterwards `sys.exit(1)` runs exactly
when `errors` is non-empty, and falling off the end of `main` exits 0. -/

/-- The fixed updater name list of `main`. -/
def updater_names : List String :=
  ["moex_stock_history", "moex_live", "moex_dividends", "index_history/IMOEX",
   "index_history/RTSI", "currency_history", "brent_history", "trading_volumes",
   "world_bank", "global_exchanges", "key_rates"]

/-- Whether an updater outcome is a raised exception. -/
def isErr : Except Unit Unit → Bool
  | Except.error _ => true
  | Except.ok _ => false

/-- The `for name, fn in updaters` loop: returns the invocation order and the
collected `errors` list. -/
def main_loop : List (String × Except Unit Unit) → List String × List String
  | [] => ([], [])
  | (name, r) :: rest =>
      let t := main_loop rest
      (name :: t.1,
       match r with
       | Except.ok _ => t.2
       | Except.error _ => name :: t.2)

/-- One full `main` run over the fixed updater list, given each updater's
outcome by name. -/
def main_run (outcomes : String → Except Unit Unit) : List String × List String :=
  main_loop (updater_names.map (fun n => (n, outcomes n)))

/-- The process exit code of `main`: `sys.exit(1)` when `errors` is truthy,
otherwise the normal end of `main` (exit status 0). -/
def main_exit_code (outcomes : String → Except Unit Unit) : Nat :=
  match (main_run outcomes).2 with
  | [] => 0
  | _ :: _ => 1

/-!  ## Concrete inputs used by witnesses and counterexamples -/

/-- A two-page stream: a full page of 100 records followed by a one-record
page. -/
def pagesW : Nat → List Nat := fun i =>
  if i = 0 then List.range 100 else if i = 1 then [1000] else []

/-- A parser rejecting every record of `pagesW`'s first page. -/
def parseW : Nat → Option Nat := fun n => if 1000 ≤ n then some n else none

/-- An all-success outcome assignment except for the dividends updater. -/
def outcomesW : String → Except Unit Unit :=
  fun n => if n = "moex_dividends" then Except.error () else Except.ok ()

/-- An empty stock table with no stored watermark. -/
def stockS0 : MoexState := ⟨fun _ => none, none⟩

/-- An empty stock table whose stored watermark (day 10) is ahead of the
small `today` used with it. -/
def stockS10 : MoexState := ⟨fun _ => none, some 10⟩

/-- A fetch oracle returning no rows for any window. -/
def fetchNone : Nat → Nat → List StockRow := fun _ _ => []

/-- A stock row dated day 15710. -/
def rowHi : StockRow := ⟨15710, none, none, none, 1, 0, 0⟩

/-- A stock row dated day 15708. -/
def rowLo : StockRow := ⟨15708, none, none, none, 1, 0, 0⟩

/-- A fetch oracle whose rows are not sorted by date: the later date comes
first in fetch order. -/
def fetchUnsorted : Nat → Nat → List StockRow := fun _ _ => [rowHi, rowLo]

/-- A fetch oracle whose rows are sorted ascending by date. -/
def fetchSorted : Nat → Nat → List StockRow := fun _ _ => [rowLo, rowHi]

/-- A fetch oracle that has data up to day 15710 only: it returns its single
row exactly when the requested window starts no later than day 15710. -/
def fetchOnce : Nat → Nat → List StockRow :=
  fun f _ => if f ≤ 15710 then [rowHi] else []

/-- A stooq oracle answering every exchange with an empty body. -/
def geUpEmpty : String → Nat → Nat → Option (List GeLine) := fun _ _ _ => some []

/-- A stooq oracle whose ICE response contains one line dated day 50. -/
def geUpOld : String → Nat → Nat → Option (List GeLine) :=
  fun t _ _ => if t = "ice.us" then some [⟨true, 50, some 1⟩] else some []

/-- An empty global-exchanges table with stored watermark 100. -/
def geS100 : GeState := ⟨fun _ => none, some 100⟩

/-- The column list of a well-formed dividends response. -/
def divCols : List String := ["registryclosedate", "value", "currencyid"]

/-- A dividends response whose single record closes its registry on
day 100. -/
def divRespA : DivResp := ⟨divCols, [[Val.num 100, Val.num 5, Val.str "SUR"]]⟩

/-- A dividends response whose single record closes its registry on
day 50, as after an upstream revision that dropped the later dividend. -/
def divRespB : DivResp := ⟨divCols, [[Val.num 50, Val.num 5, Val.str "SUR"]]⟩

/-- An empty dividends table with no stored watermark. -/
def divS0 : DivState := ⟨fun _ => none, none⟩

/-- The parsed row of `divRespA`. -/
def divRowA : DivRow := ⟨Val.num 100, Val.num 5, Val.str "SUR"⟩

/-- The state after running the dividends updater on `divRespA` from
`divS0`. -/
def divStA : DivState := divStep divRespA divS0

/-- The trace of running the dividends updater on `divRespA`. -/
def divTrA : DivTrace := ⟨dividends_url, [divRowA], some (Val.num 100)⟩

/-- The column list used by the stock-parser witness. -/
def colsW : List String :=
  ["CLOSE", "TRADEDATE", "OPEN", "HIGH", "LOW", "VOLUME", "VALUE"]

/-- A record whose `CLOSE` is zero. -/
def badRow : List Val :=
  [Val.num 0, Val.str "d", Val.null, Val.null, Val.null, Val.null, Val.null]

/-- A record whose `CLOSE` is positive; every field parses. -/
def goodRow : List Val :=
  [Val.num 3, Val.num 17000, Val.num 1, Val.num 4, Val.num 1, Val.num 9, Val.num 9]
theorem upsert_batch_go_shape {ρ : Type} :
    ∀ (fuel : Nat) (rows : List ρ),
      (upsert_batch_go fuel rows).map (fun e => (e.1.length, e.2)) =
        batch_shape fuel rows.length := by
  intro fuel
  induction fuel with
  | zero => intro rows; rfl
  | succ f ih =>
      intro rows
      cases rows with
      | nil => rfl
      | cons r rs =>
          simp only [upsert_batch_go, List.map_cons, batch_shape, List.length_cons,
            List.length_take, List.length_drop, ih]

theorem upsert_batch_go_join {ρ : Type} :
    ∀ (fuel : Nat) (rows : List ρ), rows.length ≤ fuel →
      ((upsert_batch_go fuel rows).map (fun e => e.1)).flatten = rows := by
  intro fuel
  induction fuel with
  | zero =>
      intro rows h
      rw [Nat.le_zero, List.length_eq_zero] at h
      subst h; rfl
  | succ f ih =>
      intro rows h
      cases rows with
      | nil => rfl
      | cons r rs =>
          simp only [upsert_batch_go, List.map_cons, List.flatten_cons]
          rw [ih ((r :: rs).drop BATCH_SIZE)
              (by simp only [List.length_drop, List.length_cons, BATCH_SIZE] at h ⊢; omega)]
          exact List.take_append_drop BATCH_SIZE (r :: rs)

/-- Generalisation of the pagination theorem over the starting page number:
pages `s, s+1, …` behave like pages `0, 1, …` shifted by `s`. -/
theorem fetch_go_consumes {ρ β : Type} :
    ∀ (k : Nat) (pages : Nat → List ρ) (parse : ρ → Option β) (s : Nat),
      (∀ j, j < k → (pages (s + j)).length = MOEX_PAGE_SIZE) →
      (pages (s + k)).length < MOEX_PAGE_SIZE →
      ∀ fuel, k < fuel →
        fetch_moex_paginated pages parse fuel s =
          some (((List.range (k + 1)).map
            (fun i => (pages (s + i)).filterMap parse)).flatten) := by
  intro k
  induction k with
  | zero =>
      intro pages parse s _ hshort fuel hf
      match fuel, hf with
      | f + 1, _ =>
        simp only [fetch_moex_paginated]
        by_cases he : (pages s).isEmpty
        · rw [if_pos he]
          rw [List.isEmpty_iff] at he
          simp [he, show List.range 1 = [0] from rfl]
        · rw [if_neg he]
          rw [if_pos (by simpa using hshort)]
          simp [show List.range 1 = [0] from rfl]
  | succ k ih =>
      intro pages parse s hfull hshort fuel hf
      match fuel, hf with
      | f + 1, hf =>
        have h0 : (pages (s + 0)).length = MOEX_PAGE_SIZE := hfull 0 (Nat.succ_pos k)
        rw [Nat.add_zero] at h0
        have hne : ¬ (pages s).isEmpty = true := by
          rw [List.isEmpty_iff]
          intro hcon
          rw [hcon] at h0
          simp [MOEX_PAGE_SIZE] at h0
        have hrec := ih pages parse (s + 1)
          (fun j hj => by
            have h2 := hfull (j + 1) (Nat.succ_lt_succ hj)
            rw [show s + 1 + j = s + (j + 1) from by omega]
            exact h2)
          (by
            rw [show s + 1 + k = s + (k + 1) from by omega]
            exact hshort)
          f (Nat.lt_of_succ_lt_succ hf)
        have harg : ((fun i => (pages (s + i)).filterMap parse) ∘ Nat.succ) =
            (fun i => (pages (s + 1 + i)).filterMap parse) := by
          funext i
          simp only [Function.comp]
          rw [show s + 1 + i = s + Nat.succ i from by omega]
        simp only [fetch_moex_paginated]
        rw [if_neg hne, if_neg (by rw [h0]; exact Nat.lt_irrefl _)]
        simp only [hrec]
        refine congrArg some ?_
        conv_rhs => rw [List.range_succ_eq_map, List.map_cons, List.flatten_cons,
          List.map_map, harg]
        simp

/-- The orchestrator loop invokes every updater in order and collects the
names of exactly the raising updaters, in order. -/
theorem main_loop_spec :
    ∀ us : List (String × Except Unit Unit),
      (main_loop us).1 = us.map Prod.fst ∧
      (main_loop us).2 = (us.filter (fun u => isErr u.2)).map Prod.fst := by
  intro us
  induction us with
  | nil => exact ⟨rfl, rfl⟩
  | cons u rest ih =>
      obtain ⟨n, r⟩ := u
      cases r with
      | ok v => simpa [main_loop, isErr, List.filter] using ih
      | error e => simpa [main_loop, isErr, List.filter] using ih

/-- In a list sorted by non-decreasing `trade_date`, every element's date is
at most the last element's date. -/
theorem sorted_le_getLast :
    ∀ (l : List StockRow) (hne : l ≠ []),
      List.Sorted (fun a b : StockRow => a.trade_date ≤ b.trade_date) l →
      ∀ r ∈ l, r.trade_date ≤ (l.getLast hne).trade_date := by
  intro l
  induction l with
  | nil => intro hne; exact absurd rfl hne
  | cons x xs ih =>
      intro _ hs r hr
      cases xs with
      | nil =>
          rw [List.mem_singleton] at hr
          subst hr
          exact le_refl _
      | cons y ys =>
          rw [List.getLast_cons (List.cons_ne_nil y ys)]
          rw [List.sorted_cons] at hs
          rcases List.mem_cons.mp hr with h | h
          · subst h
            exact hs.1 _ (List.getLast_mem (List.cons_ne_nil y ys))
          · exact ih (List.cons_ne_nil y ys) hs.2 r h

/-- Every element's date is at most `max_trade_date`. -/
theorem le_max_trade_date :
    ∀ (l : List StockRow), ∀ r ∈ l, r.trade_date ≤ max_trade_date l := by
  intro l
  induction l with
  | nil => intro r hr; exact absurd hr (List.not_mem_nil r)
  | cons x xs ih =>
      intro r hr
      rcases List.mem_cons.mp hr with h | h
      · subst h
        exact le_max_of_le_left (le_refl _)
      · exact le_max_of_le_right (ih r h)

/-- `max_trade_date` is at most any bound dominating all the dates. -/
theorem max_trade_date_le :
    ∀ (l : List StockRow) (b : Nat), (∀ r ∈ l, r.trade_date ≤ b) →
      max_trade_date l ≤ b := by
  intro l
  induction l with
  | nil => intro b _; exact Nat.zero_le b
  | cons x xs ih =>
      intro b hb
      exact max_le (hb x (List.mem_cons_self x xs))
        (ih b (fun r hr => hb r (List.mem_cons_of_mem x hr)))

/-- For a non-empty list sorted by non-decreasing date, the last element's
date is the maximum date. -/
theorem getLast_trade_date_eq_max (l : List StockRow) (hne : l ≠ [])
    (hs : List.Sorted (fun a b : StockRow => a.trade_date ≤ b.trade_date) l) :
    (l.getLast hne).trade_date = max_trade_date l :=
  le_antisymm (le_max_trade_date l _ (List.getLast_mem hne))
    (max_trade_date_le l _ (sorted_le_getLast l hne hs))

/-- The rows the Brent updater hands to the sink are exactly the parsed
rows surviving the local `trade_date > last` filter (watermark present). -/
theorem brent_upserts_eq_filter (lines : List BrentLine) (T : Nat → Option BrentRow)
    (w : Nat) :
    (update_brent_history lines ⟨T, some w⟩).2.upserts =
      (brent_parse_rows w lines).filter (fun r => decide (w < r.trade_date)) := by
  cases hm : (brent_parse_rows w lines).filter (fun r => decide (w < r.trade_date)) with
  | nil => simp [update_brent_history, hm]
  | cons a as => simp [update_brent_history, hm]

/-- Every row the Brent updater hands to the sink survived the local
`trade_date > last` filter. -/
theorem brent_filter_strict (lines : List BrentLine) (T : Nat → Option BrentRow)
    (w : Nat) :
    ∀ r ∈ (update_brent_history lines ⟨T, some w⟩).2.upserts, w < r.trade_date := by
  intro r hr
  rw [brent_upserts_eq_filter] at hr
  exact of_decide_eq_true (List.mem_filter.mp hr).2

/-- A stock-history run whose window is empty or whose fetch returns no rows
leaves the state exactly as it was. -/
theorem stock_run_no_rows_fixed (today : Nat) (fetch : Nat → Nat → List StockRow)
    (s : MoexState)
    (h : (incremental_dates today s.wm).1 ≤ today →
         fetch (incremental_dates today s.wm).1 today = []) :
    (update_moex_stock_history today fetch s).1 = s := by
  have h2 : (incremental_dates today s.wm).2 = today := rfl
  by_cases hgt : (incremental_dates today s.wm).1 > today
  · simp [update_moex_stock_history, h2, hgt]
  · have hz := h (Nat.le_of_not_lt hgt)
    simp [update_moex_stock_history, h2, hgt, hz]

/-!  ## Claim theorems -/

/-- Claim C7: for every input row list given to the batched upsert sink, a
1200-row input with batch size 500 issues exactly three writes of sizes 500,
500 and 200, with a pacing delay after a batch exactly when that batch is not
the final one; an empty input issues no writes and no delay; and in general
the written batches partition the input in order. -/
theorem upsert_batch_spec :
    (∀ (rows : List Nat), rows.length = 1200 →
        (upsert_batch_events rows).map (fun e => (e.1.length, e.2)) =
          [(500, true), (500, true), (200, false)]) ∧
    upsert_batch_events ([] : List Nat) = [] ∧
    ∀ {ρ : Type} (rows : List ρ),
      ((upsert_batch_events rows).map (fun e => e.1)).flatten = rows := by
  refine ⟨?_, rfl, ?_⟩
  · intro rows h
    rw [upsert_batch_events, upsert_batch_go_shape, h]
    decide
  · intro ρ rows
    exact upsert_batch_go_join rows.length rows (le_refl _)

/-- Witness for C7 at a concrete 1200-row input. -/
theorem upsert_batch_spec_witness :
    (List.replicate 1200 (0 : Nat)).length = 1200 ∧
    (upsert_batch_events (List.replicate 1200 (0 : Nat))).map
        (fun e => (e.1.length, e.2)) = [(500, true), (500, true), (200, false)] :=
  ⟨List.length_replicate 1200 0,
   upsert_batch_spec.1 (List.replicate 1200 0) (List.length_replicate 1200 0)⟩

/-- Claim C2: for a page stream whose pages `0, …, k-1` are full-sized and
whose page `k` is the first short or empty page, the pagination loop
terminates within `k + 1` requests, consuming every page up to and including
page `k`, and returns exactly the parser-accepted rows of the consumed pages
concatenated in upstream order — in particular a full page whose records are
all rejected contributes nothing but still causes the next page to be
fetched. -/
theorem fetch_paginated_consumes_all_pages {ρ β : Type}
    (pages : Nat → List ρ) (parse : ρ → Option β) (k fuel : Nat)
    (hfull : ∀ j, j < k → (pages j).length = MOEX_PAGE_SIZE)
    (hshort : (pages k).length < MOEX_PAGE_SIZE)
    (hfuel : k < fuel) :
    fetch_moex_paginated pages parse fuel 0 =
      some (((List.range (k + 1)).map (fun i => (pages i).filterMap parse)).flatten) := by
  have h := fetch_go_consumes k pages parse 0
    (fun j hj => by rw [Nat.zero_add]; exact hfull j hj)
    (by rw [Nat.zero_add]; exact hshort) fuel hfuel
  simpa using h

/-- Witness for C2: a full first page whose 100 records are all rejected,
then a short second page; the loop consumes both pages and returns the
accepted row of page 1. -/
theorem fetch_paginated_witness :
    (∀ j, j < 1 → (pagesW j).length = MOEX_PAGE_SIZE) ∧
    (pagesW 1).length < MOEX_PAGE_SIZE ∧
    fetch_moex_paginated pagesW parseW 2 0 =
      some (((List.range 2).map (fun i => (pagesW i).filterMap parseW)).flatten) ∧
    (((List.range 2).map (fun i => (pagesW i).filterMap parseW)).flatten) = [1000] :=
  ⟨by decide, by decide,
   fetch_paginated_consumes_all_pages pagesW parseW 1 2 (by decide) (by decide) (by decide),
   by decide⟩

/-- Claim C8: every run of the orchestrator over the fixed updater list
invokes every updater in order regardless of earlier failures, collects in
order the names of exactly the raising updaters, and exits 1 exactly when
some updater raised and 0 exactly when all succeeded. -/
theorem main_orchestrator_spec (outcomes : String → Except Unit Unit) :
    (main_run outcomes).1 = updater_names ∧
    (main_run outcomes).2 = updater_names.filter (fun n => isErr (outcomes n)) ∧
    (main_exit_code outcomes = 1 ↔ ∃ n ∈ updater_names, isErr (outcomes n)) ∧
    (main_exit_code outcomes = 0 ↔ ∀ n ∈ updater_names, ¬ isErr (outcomes n)) := by
  have h1 := (main_loop_spec (updater_names.map (fun n => (n, outcomes n)))).1
  have h2 := (main_loop_spec (updater_names.map (fun n => (n, outcomes n)))).2
  have hr1 : (main_run outcomes).1 = updater_names := by
    rw [main_run, h1, List.map_map]
    rw [show (Prod.fst ∘ fun n : String => (n, outcomes n)) = fun n : String => n from rfl]
    exact List.map_id updater_names
  have hr2 : (main_run outcomes).2 =
      updater_names.filter (fun n => isErr (outcomes n)) := by
    rw [main_run, h2, List.filter_map, List.map_map]
    rw [show (Prod.fst ∘ fun n : String => (n, outcomes n)) = fun n : String => n from rfl]
    rw [show ((fun u : String × Except Unit Unit => isErr u.2) ∘
        fun n : String => (n, outcomes n)) =
        fun n : String => isErr (outcomes n) from rfl]
    exact List.map_id _
  refine ⟨hr1, hr2, ?_, ?_⟩
  · rw [main_exit_code]
    rw [hr2]
    cases hc : updater_names.filter (fun n => isErr (outcomes n)) with
    | nil =>
        simp only [List.filter_eq_nil_iff] at hc
        constructor
        · intro hx
          exact absurd hx (by norm_num)
        · rintro ⟨n, hn, he⟩
          exact absurd he (hc n hn)
    | cons a as =>
        constructor
        · intro _
          have ha : a ∈ updater_names.filter (fun n => isErr (outcomes n)) := by
            rw [hc]; exact List.mem_cons_self a as
          have := List.mem_filter.mp ha
          exact ⟨a, this.1, this.2⟩
        · intro _; rfl
  · rw [main_exit_code]
    rw [hr2]
    cases hc : updater_names.filter (fun n => isErr (outcomes n)) with
    | nil =>
        simp only [List.filter_eq_nil_iff] at hc
        exact ⟨fun _ => hc, fun _ => rfl⟩
    | cons a as =>
        constructor
        · intro hx
          exact absurd hx (by norm_num)
        · intro hall
          have ha : a ∈ updater_names.filter (fun n => isErr (outcomes n)) := by
            rw [hc]; exact List.mem_cons_self a as
          have := List.mem_filter.mp ha
          exact absurd this.2 (hall a this.1)

/-- Witness for C8: with only the dividends updater raising, every updater is
still invoked, the failure list is exactly that name, and the exit code
is 1. -/
theorem main_orchestrator_witness :
    (main_run outcomesW).1 = updater_names ∧
    (main_run outcomesW).2 = ["moex_dividends"] ∧
    main_exit_code outcomesW = 1 :=
  ⟨(main_orchestrator_spec outcomesW).1,
   by rw [(main_orchestrator_spec outcomesW).2.1]; decide,
   (main_orchestrator_spec outcomesW).2.2.1.mpr (by decide)⟩

/-- Claim C1 (amended): for every source whose window is computed by
`incremental_dates` (stock history, index history, currency history, trading
volumes), a stored watermark `D` yields the window `[D+1, today]` and an
absent watermark yields `[2013-01-01, today]`; whenever `from_date >
to_date` the updater returns immediately with no request issued and no
watermark written.  (The global-exchanges and Brent updaters instead start
their range at the watermark date itself — see the counterexample.) -/
theorem incremental_window_spec :
    (∀ today D, incremental_dates today (some D) = (D + 1, today)) ∧
    (∀ today, incremental_dates today none = (default_from, today)) ∧
    (∀ today fetch (s : MoexState), (incremental_dates today s.wm).1 > today →
        update_moex_stock_history today fetch s = (s, ⟨false, [], none⟩)) := by
  refine ⟨fun _ _ => rfl, fun _ => rfl, ?_⟩
  intro today fetch s h
  have h2 : (incremental_dates today s.wm).2 = today := rfl
  simp [update_moex_stock_history, h2, h]

/-- Counterexample to C1 as stated: the `global_exchanges` source stores a
watermark (here day 100) yet computes its request range start `d1` as the
watermark itself, not watermark + 1 day. -/
theorem global_exchanges_from_date_not_succ :
    geS100.wm = some 100 ∧
    (update_global_exchanges 200 geUpEmpty geS100).2.requests =
      [("ice.us", 100, 200), ("cme.us", 100, 200), ("388.hk", 100, 200),
       ("lseg.uk", 100, 200), ("db1.de", 100, 200)] ∧
    (100 : Nat) ≠ 100 + 1 := ⟨rfl, rfl, by decide⟩

/-- Witness for C1: with watermark day 10 and `today` day 5 the computed
window is empty and the updater returns with no request and no writes. -/
theorem incremental_window_witness :
    (incremental_dates 5 stockS10.wm).1 > 5 ∧
    update_moex_stock_history 5 fetchNone stockS10 = (stockS10, ⟨false, [], none⟩) :=
  ⟨by decide, incremental_window_spec.2.2 5 fetchNone stockS10 (by decide)⟩

/-- Claim C3: running the stock-history updater a second time, when the
upstream returns no rows for the second run's window (no new data since the
first run), leaves the state — storage table and watermark — after the
second run identical to the state after the first run. -/
theorem stock_updater_idempotent (today : Nat) (fetch : Nat → Nat → List StockRow)
    (s0 : MoexState)
    (h : (incremental_dates today ((update_moex_stock_history today fetch s0).1).wm).1
           ≤ today →
         fetch (incremental_dates today
             ((update_moex_stock_history today fetch s0).1).wm).1 today = []) :
    (update_moex_stock_history today fetch
        (update_moex_stock_history today fetch s0).1).1 =
      (update_moex_stock_history today fetch s0).1 :=
  stock_run_no_rows_fixed today fetch _ h

/-- Witness for C3: one row (day 15710) is available; the first run ingests
it and the second run's window starts past all data. -/
theorem stock_updater_idempotent_witness :
    ((incremental_dates 15800 ((update_moex_stock_history 15800 fetchOnce stockS0).1).wm).1
        ≤ 15800 →
      fetchOnce (incremental_dates 15800
          ((update_moex_stock_history 15800 fetchOnce stockS0).1).wm).1 15800 = []) ∧
    (update_moex_stock_history 15800 fetchOnce
        (update_moex_stock_history 15800 fetchOnce stockS0).1).1 =
      (update_moex_stock_history 15800 fetchOnce stockS0).1 :=
  ⟨by decide, stock_updater_idempotent 15800 fetchOnce stockS0 (by decide)⟩

/-- Claim C4 (amended): when a run of the incremental stock-history updater
produces no rows it leaves the state untouched; when it produces rows it
writes as watermark the `trade_date` of the **last row in fetch order**
(`rows[-1]`), which equals the maximum date among the rows exactly when the
fetched sequence is non-decreasing by date (as MOEX returns it), but not for
arbitrary row orders — see the counterexample. -/
theorem stock_wm_is_last_row_date (today : Nat) (fetch : Nat → Nat → List StockRow)
    (s : MoexState) :
    ((update_moex_stock_history today fetch s).2.upserts = [] →
        (update_moex_stock_history today fetch s).1 = s) ∧
    (∀ r rs, (update_moex_stock_history today fetch s).2.upserts = r :: rs →
        (update_moex_stock_history today fetch s).1.wm =
          some (((r :: rs).getLast (List.cons_ne_nil r rs)).trade_date) ∧
        (List.Sorted (fun a b : StockRow => a.trade_date ≤ b.trade_date) (r :: rs) →
          ((r :: rs).getLast (List.cons_ne_nil r rs)).trade_date =
            max_trade_date (r :: rs))) := by
  have h2 : (incremental_dates today s.wm).2 = today := rfl
  by_cases hgt : (incremental_dates today s.wm).1 > today
  · have hupd : update_moex_stock_history today fetch s = (s, ⟨false, [], none⟩) := by
      simp [update_moex_stock_history, h2, hgt]
    constructor
    · intro _
      rw [hupd]
    · intro r rs hreq
      rw [hupd] at hreq
      exact absurd hreq (by simp)
  · cases hm : fetch (incremental_dates today s.wm).1 today with
    | nil =>
        have hupd : update_moex_stock_history today fetch s = (s, ⟨true, [], none⟩) := by
          simp [update_moex_stock_history, h2, hgt, hm]
        constructor
        · intro _
          rw [hupd]
        · intro r rs hreq
          rw [hupd] at hreq
          exact absurd hreq (by simp)
    | cons a as =>
        have hupd : update_moex_stock_history today fetch s =
            ({ table := upsertByKey StockRow.trade_date s.table (a :: as),
               wm := some (((a :: as).getLast (List.cons_ne_nil a as)).trade_date) },
             ⟨true, a :: as, some (((a :: as).getLast (List.cons_ne_nil a as)).trade_date)⟩) := by
          simp [update_moex_stock_history, h2, hgt, hm]
        constructor
        · intro hnil
          rw [hupd] at hnil
          exact absurd hnil (by simp)
        · intro r rs hreq
          have hcons : a :: as = r :: rs := by
            rw [hupd] at hreq
            exact hreq
          cases hcons
          constructor
          · rw [hupd]
          · intro hsort
            exact getLast_trade_date_eq_max (a :: as) (List.cons_ne_nil a as) hsort

/-- Counterexample to C4 as stated: a fetched sequence whose later date comes
first makes the updater write day 15708 (the last row in fetch order) as its
watermark, although the maximum date among the produced rows is 15710. -/
theorem stock_wm_not_max_date :
    (update_moex_stock_history 15800 fetchUnsorted stockS0).2.upserts = [rowHi, rowLo] ∧
    (update_moex_stock_history 15800 fetchUnsorted stockS0).1.wm = some 15708 ∧
    max_trade_date [rowHi, rowLo] = 15710 ∧ (15708 : Nat) ≠ 15710 := by
  refine ⟨by decide, by decide, by decide, by decide⟩

/-- Witness for C4 on a date-sorted fetch: the watermark written is the last
row's date, which for the sorted sequence is also the maximum date. -/
theorem stock_wm_is_last_row_date_witness :
    (update_moex_stock_history 15800 fetchSorted stockS0).2.upserts = [rowLo, rowHi] ∧
    (update_moex_stock_history 15800 fetchSorted stockS0).1.wm =
      some (([rowLo, rowHi].getLast (List.cons_ne_nil rowLo [rowHi])).trade_date) ∧
    ([rowLo, rowHi].getLast (List.cons_ne_nil rowLo [rowHi])).trade_date =
      max_trade_date [rowLo, rowHi] :=
  ⟨by decide,
   ((stock_wm_is_last_row_date 15800 fetchSorted stockS0).2 rowLo [rowHi] (by decide)).1,
   ((stock_wm_is_last_row_date 15800 fetchSorted stockS0).2 rowLo [rowHi] (by decide)).2
     (by decide)⟩

/-- Claim C5 (amended): the watermark never decreases for updaters that
derive it from watermark-filtered rows: every Brent watermark write strictly
exceeds the stored watermark, and a stock-history watermark write strictly
exceeds the stored watermark whenever the fetched rows honour the requested
window's lower bound.  Updaters that rewrite the watermark unconditionally
from upstream content (the dividends updater writes `divs[-1]`'s date of the
full series) can decrease it when the upstream series changes between runs —
see the counterexample. -/
theorem wm_monotone_for_filtered_updaters :
    (∀ (lines : List BrentLine) (T : Nat → Option BrentRow) (w w2 : Nat),
        (update_brent_history lines ⟨T, some w⟩).2.wm_write = some w2 → w < w2) ∧
    (∀ today fetch (s : MoexState),
        (∀ f t r, r ∈ fetch f t → f ≤ r.trade_date) →
        ∀ w w2, s.wm = some w →
          (update_moex_stock_history today fetch s).2.wm_write = some w2 → w < w2) := by
  constructor
  · intro lines T w w2 hw
    cases hm : (brent_parse_rows w lines).filter (fun r => decide (w < r.trade_date)) with
    | nil =>
        have : (update_brent_history lines ⟨T, some w⟩).2.wm_write = none := by
          simp [update_brent_history, hm]
        rw [this] at hw
        exact absurd hw (by simp)
    | cons a as =>
        have hlast : (update_brent_history lines ⟨T, some w⟩).2.wm_write =
            some (((a :: as).getLast (List.cons_ne_nil a as)).trade_date) := by
          simp [update_brent_history, hm]
        rw [hlast] at hw
        have hmem : (a :: as).getLast (List.cons_ne_nil a as) ∈
            (brent_parse_rows w lines).filter (fun r => decide (w < r.trade_date)) := by
          rw [hm]
          exact List.getLast_mem (List.cons_ne_nil a as)
        have := of_decide_eq_true (List.mem_filter.mp hmem).2
        cases hw
        exact this
  · intro today fetch s hwin w w2 hwm hw
    have h2 : (incremental_dates today s.wm).2 = today := rfl
    by_cases hgt : (incremental_dates today s.wm).1 > today
    · have : (update_moex_stock_history today fetch s).2.wm_write = none := by
        simp [update_moex_stock_history, h2, hgt]
      rw [this] at hw
      exact absurd hw (by simp)
    · cases hm : fetch (incremental_dates today s.wm).1 today with
      | nil =>
          have : (update_moex_stock_history today fetch s).2.wm_write = none := by
            simp [update_moex_stock_history, h2, hgt, hm]
          rw [this] at hw
          exact absurd hw (by simp)
      | cons a as =>
          have hlast : (update_moex_stock_history today fetch s).2.wm_write =
              some (((a :: as).getLast (List.cons_ne_nil a as)).trade_date) := by
            simp [update_moex_stock_history, h2, hgt, hm]
          rw [hlast] at hw
          have hmem : (a :: as).getLast (List.cons_ne_nil a as) ∈
              fetch (incremental_dates today s.wm).1 today := by
            rw [hm]
            exact List.getLast_mem (List.cons_ne_nil a as)
          have hge := hwin _ _ _ hmem
          rw [hwm] at hge
          cases hw
          exact Nat.lt_of_succ_le hge

/-- Counterexample to C5 as stated: two successive dividends runs — the
upstream series' last record moving from registry date 100 to registry date
50 between runs — make the source's watermark decrease from 100 to 50; the
script applies no monotonicity guard to `set_last_date`. -/
theorem dividends_wm_decreases :
    (divStep divRespA divS0).wm = some (Val.num 100) ∧
    (divStep divRespB (divStep divRespA divS0)).wm = some (Val.num 50) ∧
    (50 : Int) < 100 := ⟨rfl, rfl, by decide⟩

/-- Witness for C5: a Brent run over one line dated 150 with stored
watermark 100 writes watermark 150 > 100. -/
theorem wm_monotone_witness :
    (update_brent_history [⟨true, 150, some 7⟩]
        ⟨fun _ => none, some 100⟩).2.wm_write = some 150 ∧
    (100 : Nat) < 150 :=
  ⟨by decide,
   wm_monotone_for_filtered_updaters.1 [⟨true, 150, some 7⟩]
     (fun _ => none) 100 150 (by decide)⟩

/-- Claim C6 (amended): of the three append-only sources only the Brent
updater locally filters its rows before upserting — every row it passes to
the sink is dated strictly after the stored watermark.  The global-exchanges
updater uses the watermark only as the *inclusive* start `d1` of its
server-side request range and passes every parsed positive-close row to the
sink without comparing dates to the watermark (see the counterexample), and
the World Bank updater never reads the watermark at all: its sink payload is
identical for any two stored watermark values. -/
theorem append_only_filter_spec :
    (∀ (lines : List BrentLine) (T : Nat → Option BrentRow) (w : Nat),
        ∀ r ∈ (update_brent_history lines ⟨T, some w⟩).2.upserts, w < r.trade_date) ∧
    (∀ today upstream (T : String × Nat → Option GeRow) (w : Nat),
        (update_global_exchanges today upstream ⟨T, some w⟩).2.requests =
          ge_exchanges.map (fun e => (e.1, w, today))) ∧
    (∀ today upstream (T : String × String × Int → Option WbRow) (w1 w2 : Option Nat),
        (update_world_bank today upstream ⟨T, w1⟩).2.upserts =
          (update_world_bank today upstream ⟨T, w2⟩).2.upserts) := by
  refine ⟨brent_filter_strict, ?_, ?_⟩
  · intro today upstream T w
    cases hm : ((ge_exchanges.map (fun e =>
        match upstream e.1 w today with
        | some lines => ge_exchange_rows e.2 lines
        | none => [])).flatten) with
    | nil => simp [update_global_exchanges, hm]
    | cons a as => simp [update_global_exchanges, hm]
  · intro today upstream T w1 w2
    cases hm : ((wb_indicators.map (fun p =>
        match upstream p.1 with
        | some items => wb_indicator_rows p.1 items
        | none => [])).flatten) with
    | nil => simp [update_world_bank, hm]
    | cons a as => simp [update_world_bank, hm]

/-- Counterexample to C6 as stated: with stored watermark 100 the
global-exchanges updater passes the ICE row dated day 50 — not strictly
newer than the watermark — straight to the sink. -/
theorem global_exchanges_passes_old_row :
    geS100.wm = some 100 ∧
    (update_global_exchanges 200 geUpOld geS100).2.upserts = [⟨"ICE", 50, 1⟩] ∧
    ¬ (100 < (50 : Nat)) := ⟨rfl, by decide, by decide⟩

/-- Witness for C6: a Brent row dated 140 passed to the sink under stored
watermark 120 is indeed strictly newer than the watermark. -/
theorem append_only_filter_witness :
    (⟨140, 3⟩ : BrentRow) ∈ (update_brent_history [⟨true, 140, some 3⟩]
        ⟨fun _ => none, some 120⟩).2.upserts ∧
    (120 : Nat) < 140 :=
  ⟨by decide,
   append_only_filter_spec.1 [⟨true, 140, some 3⟩] (fun _ => none) 120
     ⟨140, 3⟩ (by decide)⟩

/-- Claim C9: a record whose primary numeric value (`CLOSE`) is null, zero or
negative is rejected by the stock parser without raising, and its rejection
leaves the processing of all subsequent records of the page unchanged. -/
theorem parse_rejects_invalid_close (cols : List String) (row : List Val)
    (rest : List (List Val)) (i : Nat) (v : Val)
    (hidx : pyIndex cols "CLOSE" = Except.ok i)
    (hget : pyGet row i = Except.ok v)
    (hbad : v = Val.null ∨ ∃ n : Int, v = Val.num n ∧ n ≤ 0) :
    parse_stock cols row = Except.ok none ∧
    process_page cols (row :: rest) = process_page cols rest := by
  have hp : parse_stock cols row = Except.ok none := by
    rcases hbad with hv | ⟨n, hv, hn⟩
    · subst hv
      simp [parse_stock, hidx, hget, Val.truthy, Bind.bind, Except.bind, Pure.pure,
        Except.pure]
    · subst hv
      by_cases h0 : n = 0
      · subst h0
        simp [parse_stock, hidx, hget, Val.truthy, Bind.bind, Except.bind, Pure.pure,
          Except.pure]
      · simp [parse_stock, hidx, hget, Val.truthy, Bind.bind, Except.bind, Pure.pure,
          Except.pure, h0, hn]
  refine ⟨hp, ?_⟩
  conv_lhs => rw [process_page]
  rw [hp]
  cases process_page cols rest <;> rfl

/-- Witness for C9: a zero-`CLOSE` record is rejected with no error and does
not affect the parse of the following valid record. -/
theorem parse_rejects_invalid_close_witness :
    pyIndex colsW "CLOSE" = Except.ok 0 ∧
    pyGet badRow 0 = Except.ok (Val.num 0) ∧
    parse_stock colsW badRow = Except.ok none ∧
    process_page colsW [badRow, goodRow] = process_page colsW [goodRow] :=
  ⟨rfl, rfl,
   (parse_rejects_invalid_close colsW badRow [goodRow] 0 (Val.num 0) rfl rfl
      (Or.inr ⟨0, rfl, by decide⟩)).1,
   (parse_rejects_invalid_close colsW badRow [goodRow] 0 (Val.num 0) rfl rfl
      (Or.inr ⟨0, rfl, by decide⟩)).2⟩

/-- Claim C10: the dividends updater's behaviour is independent of the stored
watermark — it issues the same (fixed) request and produces the identical
upsert payload and resulting table for any two stored watermark values — and
when it produces rows its final watermark write is the registry-close date of
the last parsed row. -/
theorem dividends_independent_of_watermark :
    (∀ (resp : DivResp) (T : Val → Option DivRow) (w1 w2 : Option Val),
        (update_moex_dividends resp ⟨T, w1⟩).map (fun p => (p.1.table, p.2)) =
          (update_moex_dividends resp ⟨T, w2⟩).map (fun p => (p.1.table, p.2))) ∧
    (∀ (resp : DivResp) (s st : DivState) (tr : DivTrace) (d : DivRow)
        (ds : List DivRow),
        update_moex_dividends resp s = Except.ok (st, tr) →
        tr.upserts = d :: ds →
        st.wm = some (((d :: ds).getLast (List.cons_ne_nil d ds)).registry_close_date) ∧
        tr.wm_write = st.wm) := by
  constructor
  · intro resp T w1 w2
    unfold update_moex_dividends
    cases hd : resp.data with
    | nil => rfl
    | cons r0 rest0 =>
        simp only []
        cases h1 : pyIndex resp.cols "registryclosedate" with
        | error e => rfl
        | ok ri =>
            simp only []
            cases h2 : pyIndex resp.cols "value" with
            | error e => rfl
            | ok vi =>
                simp only []
                cases h3 : pyIndex resp.cols "currencyid" with
                | error e => rfl
                | ok ci =>
                    simp only []
                    cases h4 : parse_div_rows ri vi ci (r0 :: rest0) with
                    | error e => rfl
                    | ok divs =>
                        simp only []
                        cases divs with
                        | nil => rfl
                        | cons d0 ds0 => rfl
  · intro resp s st tr d ds h hup
    unfold update_moex_dividends at h
    cases hd : resp.data with
    | nil =>
        rw [hd] at h
        cases h
        exact absurd hup (by simp)
    | cons r0 rest0 =>
        rw [hd] at h
        simp only [] at h
        cases h1 : pyIndex resp.cols "registryclosedate" with
        | error e => rw [h1] at h; cases h
        | ok ri =>
            rw [h1] at h
            simp only [] at h
            cases h2 : pyIndex resp.cols "value" with
            | error e => rw [h2] at h; cases h
            | ok vi =>
                rw [h2] at h
                simp only [] at h
                cases h3 : pyIndex resp.cols "currencyid" with
                | error e => rw [h3] at h; cases h
                | ok ci =>
                    rw [h3] at h
                    simp only [] at h
                    cases h4 : parse_div_rows ri vi ci (r0 :: rest0) with
                    | error e => rw [h4] at h; cases h
                    | ok divs =>
                        rw [h4] at h
                        simp only [] at h
                        cases divs with
                        | nil =>
                            cases h
                            exact absurd hup (by simp)
                        | cons d0 ds0 =>
                            cases h
                            cases hup
                            exact ⟨rfl, rfl⟩

/-- Witness for C10: on the concrete response `divRespA` the run results are
identical for watermark `some 1` and absent, the concrete trace has one
upserted row, and the watermark written is that row's registry-close date. -/
theorem dividends_independent_witness :
    ((update_moex_dividends divRespA ⟨fun _ => none, some (Val.num 1)⟩).map
        (fun p => (p.1.table, p.2)) =
      (update_moex_dividends divRespA ⟨fun _ => none, none⟩).map
        (fun p => (p.1.table, p.2))) ∧
    divTrA.upserts = [divRowA] ∧
    divStA.wm = some (([divRowA].getLast
      (List.cons_ne_nil divRowA [])).registry_close_date) :=
  ⟨dividends_independent_of_watermark.1 divRespA (fun _ => none) (some (Val.num 1)) none,
   rfl,
   (dividends_independent_of_watermark.2 divRespA divS0 divStA divTrA divRowA []
      rfl rfl).1⟩
